import Mathlib

/-!
Verification of the TypeBridge CLI schema-to-TypeScript generator
(`src/index.ts`).

The generator's core is a set of pure string transformations:
`mapGraphQLTypeToTSType` (chained global literal replacements on the printed
GraphQL type), `mapGraphQLScalarToTSType` (a fixed switch),
`lowercaseFirstLetter`, the bracket regex `\[(.*)\]` replaced by `$1` or
`$1[]` (greedy, so it spans from the first `[` to the last `]` of the
newline-free type string), and the per-field import accumulation inside
`generateTypeScriptForType`.  The schema walker runs two passes: enums
first (recording their names), then all remaining types.

Strings are modelled on `List Char` (`String.data`); JavaScript
`replaceAll` with a literal pattern is the left-to-right, non-overlapping
replacement `replaceList` below, and `String.prototype.includes` is
substring containment `infixB`.  All printed GraphQL type strings are
newline-free, where the regex semantics used here coincides with
JavaScript's.  Import lines are kept as a tagged list `ImpLine` whose
rendered concatenation `renderAll` is exactly the `imports` string the
source accumulates; every membership test of the source reads that
rendered string, as in the source.
-/

namespace TypeBridge

/-- Boolean test: `p` is a prefix of `s`. -/
def isPrefixB : List Char → List Char → Bool
  | [], _ => true
  | _ :: _, [] => false
  | a :: as, b :: bs => a == b && isPrefixB as bs

/-- Boolean test: `p` occurs as a contiguous substring of `s`
(JavaScript `s.includes(p)`). -/
def infixB (p : List Char) : List Char → Bool
  | [] => p.isEmpty
  | c :: rest => isPrefixB p (c :: rest) || infixB p rest

/-- `s.includes(pat)` on strings. -/
def containsStr (s pat : String) : Bool := infixB pat.data s.data

/-- Fuel-indexed left-to-right non-overlapping replacement of the literal
pattern `pat` by `rep`; with fuel at least the length of the input this is
JavaScript `replaceAll` with a literal (non-empty) pattern. -/
def replaceFuel (pat rep : List Char) : Nat → List Char → List Char
  | _, [] => []
  | 0, s => s
  | f + 1, c :: rest =>
    if pat ≠ [] ∧ isPrefixB pat (c :: rest) = true then
      rep ++ replaceFuel pat rep f (List.drop (pat.length - 1) rest)
    else
      c :: replaceFuel pat rep f rest

/-- JavaScript `s.replaceAll(pat, rep)` for a literal pattern. -/
def replaceList (pat rep s : List Char) : List Char :=
  replaceFuel pat rep s.length s

/-- String wrapper of `replaceList`. -/
def replaceStr (s pat rep : String) : String :=
  ⟨replaceList pat.data rep.data s.data⟩

/-- Split at the first occurrence of the character `c`:
`splitFirst c s = some (a, b)` iff `s = a ++ c :: b` with `c ∉ a`. -/
def splitFirst (c : Char) : List Char → Option (List Char × List Char)
  | [] => none
  | a :: rest =>
    if a = c then some ([], rest)
    else (splitFirst c rest).map (fun pr => (a :: pr.1, pr.2))

/-- The greedy regex replacement `s.replaceAll(/\[(.*)\]/gm, "$1" ++ extra)`
of the source (lines 79 and 91), for newline-free `s`: the single match runs
from the first `[` to the last `]` (when the first `[` precedes it), the
bracket pair is dropped and `extra` is appended to the captured group; the
suffix after the last `]` contains no further `]`, so no second match
occurs. -/
def bracketSubL (extra : List Char) (s : List Char) : List Char :=
  match splitFirst '[' s with
  | none => s
  | some (pre, post) =>
    match splitFirst ']' post.reverse with
    | none => s
    | some (ra, rb) => pre ++ rb.reverse ++ extra ++ ra.reverse

/-- String wrapper of `bracketSubL`. -/
def bracketSub (extra : String) (s : String) : String :=
  ⟨bracketSubL extra.data s.data⟩

/-- Source line 26: the built-in scalar names skipped by both walker
passes. -/
def scalarTypeMap : List String :=
  ["String", "Int", "Float", "Boolean", "ID", "NaiveTime", "NaiveDate", "NaiveDateTime"]

/-- Source line 27: base names never imported. -/
def ignoreFields : List String := ["string", "number", "boolean"]

/-- Source lines 31-41 (`mapGraphQLTypeToTSType`): chained global literal
replacements applied, in source order, to the raw printed GraphQL type
string. -/
def mapGraphQLTypeToTSType (s : String) : String :=
  replaceStr
    (replaceStr
      (replaceStr
        (replaceStr
          (replaceStr
            (replaceStr
              (replaceStr
                (replaceStr s "String" "string")
                "Int" "number")
              "Float" "number")
            "Boolean" "boolean")
          "ID" "string")
        "NaiveDateTime" "UTCDate")
      "NaiveTime" "UTCDate")
    "NaiveDate" "UTCDate"

/-- Source lines 43-63 (`mapGraphQLScalarToTSType`): the fixed scalar
switch with `any` as the default. -/
def mapGraphQLScalarToTSType (scalarName : String) : String :=
  if scalarName = "String" then "string"
  else if scalarName = "Int" then "number"
  else if scalarName = "Float" then "number"
  else if scalarName = "Boolean" then "boolean"
  else if scalarName = "ID" then "string"
  else if scalarName = "NaiveDateTime" then "UTCDate"
  else if scalarName = "NaiveTime" then "UTCDate"
  else if scalarName = "NaiveDate" then "UTCDate"
  else "any"

/-- Source lines 65-67 (`lowercaseFirstLetter`); `Char.toLower` agrees with
JavaScript `toLowerCase` on the ASCII identifiers GraphQL type names are
made of. -/
def lowercaseFirstLetter (s : String) : String :=
  match s.data with
  | [] => ""
  | c :: rest => ⟨Char.toLower c :: rest⟩

/-- A single-quote character, used by the `@date-fns/utc` import line. -/
def sq : String := String.singleton (Char.ofNat 39)

/-- One accumulated import line, tagged by its origin; `render` below gives
the exact text the source appends to its `imports` string. -/
inductive ImpLine
  | utc
  | enumL (n : String)
  | typeL (n : String)
deriving DecidableEq

/-- The exact text of an import line (source lines 83 and 87). -/
def ImpLine.render : ImpLine → String
  | .utc => "import type \x7bUTCDate\x7d from " ++ (sq ++ "@date-fns/utc" ++ sq) ++ ";\n"
  | .enumL n =>
    ("import \x7b" ++ n ++ "\x7d from \"./enums/" ++ lowercaseFirstLetter n) ++ "\";\n"
  | .typeL n =>
    ("import type \x7b" ++ n ++ "\x7d from \"./" ++ lowercaseFirstLetter n) ++ "\";\n"

/-- The `imports` string accumulated so far: the concatenation of the
rendered lines. -/
def renderAll : List ImpLine → String
  | [] => ""
  | l :: rest => l.render ++ renderAll rest

/-- Source line 78: the mapped TypeScript type of a field, from the printed
GraphQL type. -/
def fieldTsType (t : String) : String := mapGraphQLTypeToTSType t

/-- Source line 79: `cleanedType`, the base name used for import
resolution. -/
def cleanedTypeOf (t : String) : String :=
  replaceStr (bracketSub "" (fieldTsType t)) "!" ""

/-- Source lines 81-89: the import accumulation for one object field.
Inside the object branch `isScalarType(type)` is `false` (the branch was
entered via `isObjectType`), so the guard of line 86 reduces to the
`ignoreFields` membership test. -/
def importStep (enumTypes : List String) (ls : List ImpLine) (t : String) : List ImpLine :=
  let tsType := fieldTsType t
  let cleaned := cleanedTypeOf t
  if containsStr tsType "UTCDate" then
    if containsStr (renderAll ls) "UTCDate" then ls else ls ++ [ImpLine.utc]
  else if containsStr (renderAll ls) cleaned then ls
  else if ignoreFields.contains cleaned then ls
  else if enumTypes.contains cleaned then ls ++ [ImpLine.enumL cleaned]
  else ls ++ [ImpLine.typeL cleaned]

/-- Required/optional test of source lines 92-97: the field is rendered
required exactly when the array-converted mapped type still contains a
`!`. -/
def fieldRequired (t : String) : Bool :=
  containsStr (bracketSub "[]" (fieldTsType t)) "!"

/-- Source lines 91-97: the rendered property line of one object field; the
guard is exactly `fieldRequired`. -/
def fieldLine (fieldName t : String) : String :=
  let tsType := bracketSub "[]" (fieldTsType t)
  if fieldRequired t then
    "  " ++ fieldName ++ ": " ++ replaceStr tsType "!" "" ++ ";"
  else
    "  " ++ fieldName ++ "?: " ++ tsType ++ ";"

/-- The import lines accumulated over all fields of one object declaration
(the fold implicit in the `map` of source lines 75-98). -/
def objectImports (enumTypes : List String) (fields : List (String × String)) : List ImpLine :=
  fields.foldl (fun ls f => importStep enumTypes ls f.2) []

/-- Source lines 115-121: an interface field line; only the scalar
substitution is applied, and the line is always in the required form. -/
def interfaceFieldLine (fieldName t : String) : String :=
  "  " ++ fieldName ++ ": " ++ mapGraphQLTypeToTSType t ++ ";"

/-- The kind-specific data of one named schema type.  `other` stands for
any GraphQL type kind matched by none of the five handled branches (for
example input object types). -/
inductive TypeKind
  | object (fields : List (String × String))
  | enum (values : List (String × String))
  | scalar
  | interface (fields : List (String × String))
  | union (members : List String)
  | other

/-- One named type of the schema: its name and kind-specific data.  Fields
carry the printed form of their GraphQL type reference (`field.type.toString()`),
the sole input the generator consumes. -/
structure NamedType where
  name : String
  kind : TypeKind

/-- Source lines 69-129 (`generateTypeScriptForType`): per-type synthesis.
The module-global `enumTypes` array of the source is passed explicitly. -/
def generateTypeScriptForType (enumTypes : List String) (t : NamedType) : String :=
  match t.kind with
  | .object fields =>
    renderAll (objectImports enumTypes fields) ++ "\nexport interface " ++ t.name
      ++ " \x7b\n" ++ String.intercalate "\n" (fields.map (fun f => fieldLine f.1 f.2))
      ++ "\n\x7d"
  | .enum values =>
    "export enum " ++ t.name ++ " \x7b\n"
      ++ String.intercalate ",\n" (values.map (fun v => "  " ++ v.1 ++ " = \"" ++ v.2 ++ "\""))
      ++ "\n\x7d"
  | .scalar =>
    "export type " ++ t.name ++ " = " ++ mapGraphQLScalarToTSType t.name ++ ";"
  | .interface fields =>
    "export interface " ++ t.name ++ " \x7b\n"
      ++ String.intercalate "\n" (fields.map (fun f => interfaceFieldLine f.1 f.2))
      ++ "\n\x7d"
  | .union members =>
    "export type " ++ t.name ++ " = " ++ String.intercalate " | " members ++ ";"
  | .other => ""

/-- Kind discriminators mirroring `isScalarType` / `isEnumType`. -/
def isScalarKind : TypeKind → Bool
  | .scalar => true
  | _ => false

/-- Kind discriminator mirroring `isEnumType`. -/
def isEnumKind : TypeKind → Bool
  | .enum _ => true
  | _ => false

/-- `name.startsWith("__")` of source lines 218 and 238. -/
def isMetaName (n : String) : Bool := isPrefixB "__".data n.data

/-- Pass-1 state: the enum registry built so far and the enum files written
so far (path, content). -/
def pass1Step (ignore : List String) (st : List String × List (String × String))
    (t : NamedType) : List String × List (String × String) :=
  if isMetaName t.name then st
  else if ignore.contains t.name then st
  else if isScalarKind t.kind && scalarTypeMap.contains t.name then st
  else if !isEnumKind t.kind then st
  else
    let c := generateTypeScriptForType st.1 t
    if c = "" then st
    else (st.1 ++ [t.name], st.2 ++ [("enums/" ++ lowercaseFirstLetter t.name ++ ".ts", c)])

/-- Source lines 216-234: the enum-first pass over the type map. -/
def pass1 (ignore : List String) (types : List NamedType) :
    List String × List (String × String) :=
  types.foldl (pass1Step ignore) ([], [])

/-- The enum registry after pass 1. -/
def collectEnums (ignore : List String) (types : List NamedType) : List String :=
  (pass1 ignore types).1

/-- Pass-2 step: files written for the remaining (non-enum) types. -/
def pass2Step (ignore enumTypes : List String) (files : List (String × String))
    (t : NamedType) : List (String × String) :=
  if isMetaName t.name then files
  else if ignore.contains t.name then files
  else if isScalarKind t.kind && scalarTypeMap.contains t.name then files
  else if isEnumKind t.kind then files
  else
    let c := generateTypeScriptForType enumTypes t
    if c = "" then files
    else files ++ [(lowercaseFirstLetter t.name ++ ".ts", c)]

/-- Source lines 236-252: the second pass over the type map. -/
def pass2 (ignore enumTypes : List String) (types : List NamedType) :
    List (String × String) :=
  types.foldl (pass2Step ignore enumTypes) []

/-- A GraphQL type reference: a name, possibly wrapped in list and
non-null combinators. -/
inductive TypeRef
  | named (n : String)
  | list (t : TypeRef)
  | nonNull (t : TypeRef)

/-- The canonical printed form produced by `graphql-js` (`type.toString()`):
lists print as `[inner]`, non-null as `inner!`. -/
def TypeRef.print : TypeRef → String
  | .named n => n
  | .list t => "[" ++ t.print ++ "]"
  | .nonNull t => t.print ++ "!"

/-- Whether a non-null wrapper occurs anywhere in the reference. -/
def TypeRef.hasNonNull : TypeRef → Bool
  | .named _ => false
  | .list t => t.hasNonNull
  | .nonNull _ => true

/-- Whether the outermost combinator is non-null (a trailing `!` on the
printed form). -/
def TypeRef.isNonNullTop : TypeRef → Bool
  | .nonNull _ => true
  | _ => false

/-- Well-formedness of the underlying name: a GraphQL type name contains
none of the wrapper characters. -/
def TypeRef.nameClean : TypeRef → Bool
  | .named n => decide ('[' ∉ n.data) && decide (']' ∉ n.data) && decide ('!' ∉ n.data)
  | .list t => t.nameClean
  | .nonNull t => t.nameClean

/-- Number of import lines of the declaration importing the base name `b`. -/
def nameImportCount (ls : List ImpLine) (b : String) : Nat :=
  ls.count (ImpLine.enumL b) + ls.count (ImpLine.typeL b)

/-- Number of `@date-fns/utc` import lines of the declaration. -/
def utcImportCount (ls : List ImpLine) : Nat :=
  ls.count ImpLine.utc

/-! ### Basic string lemmas -/

theorem data_append (a b : String) : (a ++ b).data = a.data ++ b.data := by
  cases a; cases b; rfl

theorem string_ext {a b : String} (h : a.data = b.data) : a = b := by
  cases a
  cases b
  exact congrArg String.mk h

theorem isPrefixB_iff (p s : List Char) : isPrefixB p s = true ↔ p <+: s := by
  induction p generalizing s with
  | nil => simp [isPrefixB]
  | cons a as ih =>
    cases s with
    | nil => simp [isPrefixB]
    | cons b bs => simp [isPrefixB, List.cons_prefix_cons, ih]

theorem infixB_iff (p s : List Char) : infixB p s = true ↔ p <:+: s := by
  induction s with
  | nil => simp [infixB, List.isEmpty_iff]
  | cons c rest ih =>
    simp [infixB, List.infix_cons_iff, isPrefixB_iff, ih]

theorem infixB_single (c : Char) (s : List Char) : infixB [c] s = true ↔ c ∈ s := by
  rw [infixB_iff]
  constructor
  · intro h
    exact h.subset (by simp)
  · intro h
    obtain ⟨a, b, rfl⟩ := List.append_of_mem h
    exact ⟨a, b, by simp⟩

theorem infixB_append_right {p a : List Char} (b : List Char) (h : infixB p a = true) :
    infixB p (a ++ b) = true := by
  rw [infixB_iff] at h ⊢
  exact h.trans ⟨[], b, by simp⟩

theorem infixB_append_left {p b : List Char} (a : List Char) (h : infixB p b = true) :
    infixB p (a ++ b) = true := by
  rw [infixB_iff] at h ⊢
  exact h.trans ⟨a, [], by simp⟩

theorem infixB_middle (a p b : List Char) : infixB p (a ++ p ++ b) = true := by
  rw [infixB_iff]
  exact ⟨a, b, rfl⟩

/-! ### Lemmas about literal replacement -/

theorem replaceFuel_nil (pat rep : List Char) (f : Nat) : replaceFuel pat rep f [] = [] := by
  cases f <;> rfl

theorem replaceFuel_zero (pat rep : List Char) (s : List Char) :
    replaceFuel pat rep 0 s = s := by
  cases s <;> rfl

theorem isPrefixB_false_of_head {p0 c : Char} {pr s : List Char} (h : p0 ≠ c) :
    isPrefixB (p0 :: pr) (c :: s) = false := by
  simp [isPrefixB, h]

theorem replaceList_cons {pat : List Char} (rep : List Char) {c : Char} (s : List Char)
    (hc : c ∉ pat) : replaceList pat rep (c :: s) = c :: replaceList pat rep s := by
  cases pat with
  | nil => simp [replaceList, replaceFuel]
  | cons p0 pr =>
    have hne : p0 ≠ c := fun h => hc (h ▸ List.mem_cons_self p0 pr)
    simp [replaceList, replaceFuel, isPrefixB_false_of_head hne]

theorem isPrefixB_concat {pat : List Char} {c : Char} (hc : c ∉ pat) :
    ∀ l : List Char, isPrefixB pat (l ++ [c]) = isPrefixB pat l := by
  intro l
  induction pat generalizing l with
  | nil => simp [isPrefixB]
  | cons p0 pr ih =>
    cases l with
    | nil =>
      have hne : p0 ≠ c := fun h => hc (h ▸ List.mem_cons_self p0 pr)
      simp [isPrefixB, hne]
    | cons a l' =>
      have hc' : c ∉ pr := fun h => hc (List.mem_cons_of_mem _ h)
      simp only [List.cons_append, isPrefixB]
      exact congrArg (p0 == a && ·) (ih hc' l')

theorem replaceFuel_concat {pat rep : List Char} {c : Char} (hc : c ∉ pat) :
    ∀ f s, s.length ≤ f →
      replaceFuel pat rep (f + 1) (s ++ [c]) = replaceFuel pat rep f s ++ [c] := by
  intro f
  induction f with
  | zero =>
    intro s hs
    have : s = [] := List.length_eq_zero.mp (Nat.le_zero.mp hs)
    subst this
    cases pat with
    | nil => simp [replaceFuel]
    | cons p0 pr =>
      have hne : p0 ≠ c := fun h => hc (h ▸ List.mem_cons_self p0 pr)
      simp [replaceFuel, isPrefixB_false_of_head hne, replaceFuel_zero]
  | succ g ih =>
    intro s hs
    cases s with
    | nil =>
      cases pat with
      | nil => simp [replaceFuel, replaceFuel_nil]
      | cons p0 pr =>
        have hne : p0 ≠ c := fun h => hc (h ▸ List.mem_cons_self p0 pr)
        simp [replaceFuel, isPrefixB_false_of_head hne, replaceFuel_nil]
    | cons a s' =>
      have hs' : s'.length ≤ g := by simpa using hs
      have hpre : isPrefixB pat (a :: (s' ++ [c])) = isPrefixB pat (a :: s') := by
        rw [← List.cons_append]
        exact isPrefixB_concat hc _
      by_cases hm : pat ≠ [] ∧ isPrefixB pat (a :: s') = true
      · have hm2 : pat ≠ [] ∧ isPrefixB pat (a :: (s' ++ [c])) = true :=
          ⟨hm.1, by rw [hpre]; exact hm.2⟩
        simp only [List.cons_append, replaceFuel, List.append_eq]
        rw [if_pos hm2]
        have hplen : pat.length ≤ s'.length + 1 := by
          have := (isPrefixB_iff pat (a :: s')).mp hm.2
          simpa using this.length_le
        have hdrop : List.drop (pat.length - 1) (s' ++ [c]) =
            List.drop (pat.length - 1) s' ++ [c] := by
          apply List.drop_append_of_le_length
          omega
        rw [if_pos hm, hdrop, List.append_assoc]
        congr 1
        have hlen2 : (List.drop (pat.length - 1) s').length ≤ g := by
          simp only [List.length_drop]
          omega
        exact ih _ hlen2
      · have hm2 : ¬(pat ≠ [] ∧ isPrefixB pat (a :: (s' ++ [c])) = true) := by
          rw [hpre]
          exact hm
        simp only [List.cons_append, replaceFuel, List.append_eq]
        rw [if_neg hm2, if_neg hm, List.cons_append]
        congr 1
        exact ih s' hs'

theorem replaceList_concat {pat : List Char} (rep : List Char) {c : Char} (s : List Char)
    (hc : c ∉ pat) : replaceList pat rep (s ++ [c]) = replaceList pat rep s ++ [c] := by
  unfold replaceList
  have : (s ++ [c]).length = s.length + 1 := by simp
  rw [this]
  exact replaceFuel_concat hc s.length s (Nat.le_refl _)

theorem replaceList_of_not_infixB {pat rep s : List Char} (h : infixB pat s = false) :
    replaceList pat rep s = s := by
  induction s with
  | nil => simp [replaceList, replaceFuel]
  | cons c rest ih =>
    have h1 : isPrefixB pat (c :: rest) = false := by
      by_contra hx
      simp only [infixB, Bool.or_eq_false_iff] at h
      exact absurd h.1 hx
    have h2 : infixB pat rest = false := by
      simp only [infixB, Bool.or_eq_false_iff] at h
      exact h.2
    have hguard : ¬(pat ≠ [] ∧ isPrefixB pat (c :: rest) = true) := by
      intro hx
      rw [h1] at hx
      exact absurd hx.2 (by simp)
    simp only [replaceList, List.length_cons, replaceFuel, if_neg hguard]
    exact congrArg (c :: ·) (ih h2)

theorem replaceFuel_mem {pat rep : List Char} {c : Char} (hp : c ∉ pat) (hr : c ∉ rep) :
    ∀ f s, s.length ≤ f → (c ∈ replaceFuel pat rep f s ↔ c ∈ s) := by
  intro f
  induction f with
  | zero => intro s _; rw [replaceFuel_zero]
  | succ g ih =>
    intro s hs
    cases s with
    | nil => simp [replaceFuel_nil]
    | cons a s' =>
      have hs' : s'.length ≤ g := by simpa using hs
      simp only [replaceFuel]
      by_cases hm : pat ≠ [] ∧ isPrefixB pat (a :: s') = true
      · rw [if_pos hm]
        have hpre := (isPrefixB_iff pat (a :: s')).mp hm.2
        obtain ⟨t, ht⟩ := hpre
        have hplen : 1 ≤ pat.length := by
          cases pat with
          | nil => exact absurd rfl hm.1
          | cons _ _ => simp
        have htdrop : t = List.drop (pat.length - 1) s' := by
          have : t = List.drop pat.length (a :: s') := by
            rw [← ht, List.drop_left]
          rw [this]
          cases pat with
          | nil => exact absurd rfl hm.1
          | cons p0 pr => simp
        have hsplit : c ∈ a :: s' ↔ c ∈ pat ∨ c ∈ t := by
          rw [← ht]; simp
        have hlen2 : (List.drop (pat.length - 1) s').length ≤ g := by
          simp only [List.length_drop]; omega
        rw [List.mem_append, ih _ hlen2, ← htdrop, hsplit]
        simp [hp, hr]
      · rw [if_neg hm]
        simp [ih s' hs']

theorem replaceList_mem {pat rep : List Char} {c : Char} (hp : c ∉ pat) (hr : c ∉ rep)
    (s : List Char) : c ∈ replaceList pat rep s ↔ c ∈ s :=
  replaceFuel_mem hp hr s.length s (Nat.le_refl _)

theorem data_mk (l : List Char) : (String.mk l).data = l := rfl

theorem replaceStr_wrap {pat : String} (s rep : String) (h1 : '[' ∉ pat.data)
    (h2 : ']' ∉ pat.data) :
    replaceStr ("[" ++ s ++ "]") pat rep = "[" ++ replaceStr s pat rep ++ "]" := by
  apply string_ext
  have hd : ("[" ++ s ++ "]").data = '[' :: (s.data ++ [']']) := by
    simp [data_append]
  simp only [replaceStr, data_mk, data_append, hd]
  rw [show ('[' : Char) :: (s.data ++ [']']) = ('[' :: s.data) ++ [']'] from rfl]
  rw [replaceList_concat _ _ h2, replaceList_cons _ _ h1]
  simp

theorem replaceStr_bang {pat : String} (s rep : String) (h : '!' ∉ pat.data) :
    replaceStr (s ++ "!") pat rep = replaceStr s pat rep ++ "!" := by
  apply string_ext
  have hd : (s ++ "!").data = s.data ++ ['!'] := by simp [data_append]
  simp only [replaceStr, data_mk, data_append, hd]
  rw [replaceList_concat _ _ h]

theorem mapG_wrap (s : String) :
    mapGraphQLTypeToTSType ("[" ++ s ++ "]") = "[" ++ mapGraphQLTypeToTSType s ++ "]" := by
  unfold mapGraphQLTypeToTSType
  rw [replaceStr_wrap _ _ (by decide) (by decide)]
  rw [replaceStr_wrap _ _ (by decide) (by decide)]
  rw [replaceStr_wrap _ _ (by decide) (by decide)]
  rw [replaceStr_wrap _ _ (by decide) (by decide)]
  rw [replaceStr_wrap _ _ (by decide) (by decide)]
  rw [replaceStr_wrap _ _ (by decide) (by decide)]
  rw [replaceStr_wrap _ _ (by decide) (by decide)]
  rw [replaceStr_wrap _ _ (by decide) (by decide)]

theorem mapG_bang (s : String) :
    mapGraphQLTypeToTSType (s ++ "!") = mapGraphQLTypeToTSType s ++ "!" := by
  unfold mapGraphQLTypeToTSType
  rw [replaceStr_bang _ _ (by decide)]
  rw [replaceStr_bang _ _ (by decide)]
  rw [replaceStr_bang _ _ (by decide)]
  rw [replaceStr_bang _ _ (by decide)]
  rw [replaceStr_bang _ _ (by decide)]
  rw [replaceStr_bang _ _ (by decide)]
  rw [replaceStr_bang _ _ (by decide)]
  rw [replaceStr_bang _ _ (by decide)]

theorem mapG_mem_bang (s : String) :
    '!' ∈ (mapGraphQLTypeToTSType s).data ↔ '!' ∈ s.data := by
  unfold mapGraphQLTypeToTSType
  simp only [replaceStr, data_mk]
  rw [replaceList_mem (by decide) (by decide)]
  rw [replaceList_mem (by decide) (by decide)]
  rw [replaceList_mem (by decide) (by decide)]
  rw [replaceList_mem (by decide) (by decide)]
  rw [replaceList_mem (by decide) (by decide)]
  rw [replaceList_mem (by decide) (by decide)]
  rw [replaceList_mem (by decide) (by decide)]
  rw [replaceList_mem (by decide) (by decide)]

/-! ### Lemmas about the bracket regex -/

theorem splitFirst_eq_some {c : Char} :
    ∀ {s a b : List Char}, splitFirst c s = some (a, b) → s = a ++ c :: b ∧ c ∉ a := by
  intro s
  induction s with
  | nil => intro a b h; simp [splitFirst] at h
  | cons x rest ih =>
    intro a b h
    by_cases hx : x = c
    · subst hx
      simp only [splitFirst, if_pos rfl, Option.some.injEq, Prod.mk.injEq] at h
      obtain ⟨rfl, rfl⟩ := h
      simp
    · simp only [splitFirst, if_neg hx] at h
      cases hsf : splitFirst c rest with
      | none => rw [hsf] at h; simp at h
      | some pr =>
        obtain ⟨a', b'⟩ := pr
        rw [hsf] at h
        simp only [Option.map, Option.some.injEq, Prod.mk.injEq] at h
        obtain ⟨rfl, rfl⟩ := h
        obtain ⟨hrest, hmem⟩ := ih hsf
        refine ⟨by simp [hrest], ?_⟩
        simp only [List.mem_cons, not_or]
        exact ⟨fun hcx => hx hcx.symm, hmem⟩

theorem splitFirst_head (c : Char) (rest : List Char) :
    splitFirst c (c :: rest) = some ([], rest) := by
  simp [splitFirst]

theorem splitFirst_none_of_not_mem {c : Char} :
    ∀ {s : List Char}, c ∉ s → splitFirst c s = none := by
  intro s
  induction s with
  | nil => intro _; rfl
  | cons x rest ih =>
    intro h
    have hx : x ≠ c := fun he => h (he ▸ List.mem_cons_self x rest)
    have hr : c ∉ rest := fun hm => h (List.mem_cons_of_mem _ hm)
    simp [splitFirst, hx, ih hr]

theorem bracketSubL_single (extra m : List Char) :
    bracketSubL extra ('[' :: (m ++ [']'])) = m ++ extra := by
  have h1 : splitFirst '[' ('[' :: (m ++ [']'])) = some ([], m ++ [']']) :=
    splitFirst_head _ _
  have h2 : splitFirst ']' (m ++ [']']).reverse = some ([], m.reverse) := by
    rw [show (m ++ [']']).reverse = ']' :: m.reverse by simp]
    exact splitFirst_head _ _
  simp only [bracketSubL, h1, h2]
  simp

theorem bracketSubL_nested (extra m : List Char) :
    bracketSubL extra ('[' :: '[' :: (m ++ [']', ']'])) = ('[' :: (m ++ [']'])) ++ extra := by
  have h1 : splitFirst '[' ('[' :: '[' :: (m ++ [']', ']'])) =
      some ([], '[' :: (m ++ [']', ']'])) := splitFirst_head _ _
  have h2 : splitFirst ']' ('[' :: (m ++ [']', ']'])).reverse =
      some ([], ']' :: m.reverse ++ ['[']) := by
    rw [show ('[' :: (m ++ [']', ']'])).reverse = ']' :: (']' :: m.reverse ++ ['[']) by simp]
    exact splitFirst_head _ _
  simp only [bracketSubL, h1, h2]
  simp

theorem bracketSubL_no_bracket {s : List Char} (extra : List Char) (h : '[' ∉ s) :
    bracketSubL extra s = s := by
  simp only [bracketSubL, splitFirst_none_of_not_mem h]

theorem bracketSubL_mem {x : Char} (hx1 : x ≠ '[') (hx2 : x ≠ ']') {extra : List Char}
    (hex : ∀ y ∈ extra, y = '[' ∨ y = ']') (s : List Char) :
    x ∈ bracketSubL extra s ↔ x ∈ s := by
  cases h1 : splitFirst '[' s with
  | none => simp only [bracketSubL, h1]
  | some pr =>
    obtain ⟨pre, post⟩ := pr
    cases h2 : splitFirst ']' post.reverse with
    | none => simp only [bracketSubL, h1, h2]
    | some pr2 =>
      obtain ⟨ra, rb⟩ := pr2
      obtain ⟨hs, _⟩ := splitFirst_eq_some h1
      obtain ⟨hpost, _⟩ := splitFirst_eq_some h2
      have hpost' : post = rb.reverse ++ ']' :: ra.reverse := by
        have := congrArg List.reverse hpost
        simpa using this
      have hxe : x ∉ extra := fun hm => by
        rcases hex x hm with h | h
        · exact hx1 h
        · exact hx2 h
      simp only [bracketSubL, h1, h2]
      rw [hs, hpost']
      simp only [List.mem_append, List.mem_cons, List.mem_reverse]
      tauto

/-! ### C5: the scalar mapper table -/

/-- C5 (confirmed): the scalar mapper is the fixed total function — String
to string, Int and Float to number, Boolean to boolean, ID to string, the
three temporal scalar names to UTCDate, and every name outside the table to
the fallback `any` (the `switch` default, not an error). -/
theorem C5_scalar_mapper_fixed_table :
    (mapGraphQLScalarToTSType "String" = "string" ∧
      mapGraphQLScalarToTSType "Int" = "number" ∧
      mapGraphQLScalarToTSType "Float" = "number" ∧
      mapGraphQLScalarToTSType "Boolean" = "boolean" ∧
      mapGraphQLScalarToTSType "ID" = "string" ∧
      mapGraphQLScalarToTSType "NaiveDate" = "UTCDate" ∧
      mapGraphQLScalarToTSType "NaiveTime" = "UTCDate" ∧
      mapGraphQLScalarToTSType "NaiveDateTime" = "UTCDate") ∧
    ∀ s : String, s ∉ scalarTypeMap → mapGraphQLScalarToTSType s = "any" := by
  constructor
  · exact ⟨by decide, by decide, by decide, by decide, by decide, by decide, by decide,
      by decide⟩
  · intro s hs
    have h1 : s ≠ "String" := fun h => hs (by rw [h]; decide)
    have h2 : s ≠ "Int" := fun h => hs (by rw [h]; decide)
    have h3 : s ≠ "Float" := fun h => hs (by rw [h]; decide)
    have h4 : s ≠ "Boolean" := fun h => hs (by rw [h]; decide)
    have h5 : s ≠ "ID" := fun h => hs (by rw [h]; decide)
    have h6 : s ≠ "NaiveDateTime" := fun h => hs (by rw [h]; decide)
    have h7 : s ≠ "NaiveTime" := fun h => hs (by rw [h]; decide)
    have h8 : s ≠ "NaiveDate" := fun h => hs (by rw [h]; decide)
    simp [mapGraphQLScalarToTSType, h1, h2, h3, h4, h5, h6, h7, h8]

/-- Witness for C5 at the concrete custom scalar name `Upload`. -/
theorem C5_witness : ("Upload" : String) ∉ scalarTypeMap ∧
    mapGraphQLScalarToTSType "Upload" = "any" :=
  ⟨by decide, C5_scalar_mapper_fixed_table.2 "Upload" (by decide)⟩

/-! ### C4: token substitution on the raw type string -/

/-- C4 (corrected): the claim that scalar names are substituted only as
whole tokens is false — the chained global replacements match substrings,
so the non-scalar name `Interval` is corrupted to `numbererval` (its `Int`
substring is replaced) instead of passing through unchanged. -/
theorem C4_counterexample :
    ("Interval" : String) ∉ scalarTypeMap ∧
    mapGraphQLTypeToTSType "Interval" = "numbererval" ∧
    mapGraphQLTypeToTSType "VideoID" = "Videostring" := by
  refine ⟨by decide, ?_, ?_⟩ <;> decide

/-- C4 (amended): the substitution is a sequence of global substring
replacements; it agrees with the scalar mapper on the exact table names,
and a bare name containing no table name as a substring passes through
unchanged (and, bracket-free, is left unchanged by the array-suffix
step as well) — but names merely containing a table name as a substring
are corrupted. -/
theorem C4_amended :
    (∀ n, n ∈ scalarTypeMap → mapGraphQLTypeToTSType n = mapGraphQLScalarToTSType n) ∧
    (∀ s : String, (∀ p, p ∈ scalarTypeMap → containsStr s p = false) →
      mapGraphQLTypeToTSType s = s) ∧
    (∀ s : String, (∀ p, p ∈ scalarTypeMap → containsStr s p = false) → '[' ∉ s.data →
      bracketSub "[]" (mapGraphQLTypeToTSType s) = s) := by
  have hpass : ∀ s : String, (∀ p, p ∈ scalarTypeMap → containsStr s p = false) →
      mapGraphQLTypeToTSType s = s := by
    intro s hp
    have e1 : replaceStr s "String" "string" = s :=
      string_ext (replaceList_of_not_infixB (hp "String" (by decide)))
    have e2 : replaceStr s "Int" "number" = s :=
      string_ext (replaceList_of_not_infixB (hp "Int" (by decide)))
    have e3 : replaceStr s "Float" "number" = s :=
      string_ext (replaceList_of_not_infixB (hp "Float" (by decide)))
    have e4 : replaceStr s "Boolean" "boolean" = s :=
      string_ext (replaceList_of_not_infixB (hp "Boolean" (by decide)))
    have e5 : replaceStr s "ID" "string" = s :=
      string_ext (replaceList_of_not_infixB (hp "ID" (by decide)))
    have e6 : replaceStr s "NaiveDateTime" "UTCDate" = s :=
      string_ext (replaceList_of_not_infixB (hp "NaiveDateTime" (by decide)))
    have e7 : replaceStr s "NaiveTime" "UTCDate" = s :=
      string_ext (replaceList_of_not_infixB (hp "NaiveTime" (by decide)))
    have e8 : replaceStr s "NaiveDate" "UTCDate" = s :=
      string_ext (replaceList_of_not_infixB (hp "NaiveDate" (by decide)))
    unfold mapGraphQLTypeToTSType
    rw [e1, e2, e3, e4, e5, e6, e7, e8]
  refine ⟨?_, hpass, ?_⟩
  · intro n hn
    simp only [scalarTypeMap, List.mem_cons, List.not_mem_nil, or_false] at hn
    rcases hn with rfl | rfl | rfl | rfl | rfl | rfl | rfl | rfl <;> decide
  · intro s hp hb
    rw [hpass s hp]
    exact string_ext (bracketSubL_no_bracket _ hb)

/-- Witness for C4's amended claim at the table name `Int` and the
scalar-substring-free name `Color`. -/
theorem C4_witness :
    mapGraphQLTypeToTSType "Int" = mapGraphQLScalarToTSType "Int" ∧
    mapGraphQLTypeToTSType "Color" = "Color" :=
  ⟨C4_amended.1 "Int" (by decide), C4_amended.2.1 "Color" (by decide)⟩

/-! ### C3: list wrapping and the array suffix -/

/-- C3 (corrected): the claim that a nested list-of-list collapses to a
single array suffix with no residual brackets is false — `[[String]]`
renders as `[string][]`, keeping the inner bracket pair, because the
greedy regex strips only the outermost pair. -/
theorem C3_counterexample :
    fieldLine "f" (TypeRef.print (.list (.list (.named "String")))) = "  f?: [string][];" ∧
    fieldLine "f" (TypeRef.print (.list (.list (.named "String")))) ≠ "  f?: string[];" := by
  constructor <;> decide

/-- C3 (amended): a single-level list renders as the mapped inner type
followed by exactly one array suffix, for any inner nullability (the inner
string is untouched); a nested list-of-list renders with the outermost
bracket pair converted to one array suffix and the inner bracket pair left
in place: `[[T]]` becomes `[T'][]`. -/
theorem C3_amended (s : String) :
    bracketSub "[]" (mapGraphQLTypeToTSType ("[" ++ s ++ "]")) =
      mapGraphQLTypeToTSType s ++ "[]" ∧
    bracketSub "[]" (mapGraphQLTypeToTSType ("[[" ++ s ++ "]]")) =
      ("[" ++ mapGraphQLTypeToTSType s ++ "]") ++ "[]" := by
  constructor
  · rw [mapG_wrap]
    apply string_ext
    have hd : ("[" ++ mapGraphQLTypeToTSType s ++ "]").data =
        '[' :: ((mapGraphQLTypeToTSType s).data ++ [']']) := by
      simp [data_append]
    simp only [bracketSub, data_mk, hd, data_append]
    rw [bracketSubL_single]
  · have hsplit : ("[[" ++ s ++ "]]" : String) = "[" ++ ("[" ++ s ++ "]") ++ "]" := by
      apply string_ext
      simp [data_append]
    rw [hsplit, mapG_wrap, mapG_wrap]
    apply string_ext
    have hd : ("[" ++ ("[" ++ mapGraphQLTypeToTSType s ++ "]") ++ "]").data =
        '[' :: '[' :: ((mapGraphQLTypeToTSType s).data ++ [']', ']']) := by
      simp [data_append]
    simp only [bracketSub, data_mk, hd, data_append]
    rw [bracketSubL_nested]
    simp [data_append]

/-! ### C2: the required/optional decision -/

theorem containsStr_bang_iff (x : String) : containsStr x "!" = true ↔ '!' ∈ x.data := by
  unfold containsStr
  rw [show ("!" : String).data = ['!'] from rfl]
  exact infixB_single _ _

theorem contains_bang_bracketSub (x : String) :
    containsStr (bracketSub "[]" x) "!" = containsStr x "!" := by
  rw [Bool.eq_iff_iff, containsStr_bang_iff, containsStr_bang_iff]
  simp only [bracketSub, data_mk]
  exact bracketSubL_mem (by decide) (by decide) (by decide) _

theorem contains_bang_mapG (s : String) :
    containsStr (mapGraphQLTypeToTSType s) "!" = containsStr s "!" := by
  rw [Bool.eq_iff_iff, containsStr_bang_iff, containsStr_bang_iff]
  exact mapG_mem_bang s

theorem print_contains_bang (ref : TypeRef) (h : ref.nameClean = true) :
    containsStr ref.print "!" = ref.hasNonNull := by
  induction ref with
  | named n =>
    simp only [TypeRef.nameClean, Bool.and_eq_true, decide_eq_true_eq] at h
    simp only [TypeRef.print, TypeRef.hasNonNull]
    rw [Bool.eq_false_iff]
    intro hc
    exact h.2 ((containsStr_bang_iff n).mp hc)
  | list t ih =>
    simp only [TypeRef.nameClean] at h
    simp only [TypeRef.print, TypeRef.hasNonNull]
    rw [← ih h, Bool.eq_iff_iff, containsStr_bang_iff, containsStr_bang_iff]
    simp [data_append]
  | nonNull t ih =>
    simp only [TypeRef.print, TypeRef.hasNonNull]
    rw [Bool.eq_iff_iff]
    simp only [iff_true]
    rw [containsStr_bang_iff]
    simp [data_append]

/-- C2 (corrected): the claim that a field is required exactly when the
reference carries a trailing outermost non-null marker is false — a
nullable list of non-null elements such as `[A!]` has no trailing marker,
yet the source tests `tsType.includes("!")`, which also sees the inner
marker, so the field renders required. -/
theorem C2_counterexample :
    TypeRef.isNonNullTop (.list (.nonNull (.named "A"))) = false ∧
    fieldLine "f" (TypeRef.print (.list (.nonNull (.named "A")))) = "  f: A[];" := by
  constructor <;> decide

/-- C2 (amended): a field is rendered required exactly when a non-null
wrapper occurs anywhere in its type reference (equivalently, when the
printed reference contains a `!` at any depth), not only at the outermost
level. -/
theorem C2_amended (ref : TypeRef) (h : ref.nameClean = true) :
    fieldRequired ref.print = ref.hasNonNull := by
  unfold fieldRequired fieldTsType
  rw [contains_bang_bracketSub, contains_bang_mapG]
  exact print_contains_bang ref h

/-- Witness for C2's amended claim at the reference `[A!]`. -/
theorem C2_witness :
    fieldRequired (TypeRef.print (.list (.nonNull (.named "A")))) =
      TypeRef.hasNonNull (.list (.nonNull (.named "A"))) :=
  C2_amended _ (by decide)

/-! ### C7: imports skipped for primitives, but not for self-references -/

/-- C7 (corrected): the claim is false for self-references — the source
never compares the base name with the type being declared, so a
self-referential field emits a self-import: generating `Person` with field
`friend: Person` produces an import line for `Person` itself. -/
theorem C7_counterexample :
    objectImports [] [("friend", "Person")] = [ImpLine.typeL "Person"] ∧
    generateTypeScriptForType [] ⟨"Person", .object [("friend", "Person")]⟩ =
      ImpLine.render (ImpLine.typeL "Person") ++
        "\nexport interface Person \x7b\n  friend?: Person;\n\x7d" := by
  constructor <;> decide

/-- C7 (amended): a field whose base name is one of the built-in primitive
names (string, number, boolean) emits no import line; a self-referential
field, however, does emit a (self-)import — there is no self-reference
check in the source. -/
theorem C7_amended (e : List String) (ls : List ImpLine) (t : String)
    (h1 : containsStr (fieldTsType t) "UTCDate" = false)
    (h2 : cleanedTypeOf t ∈ ignoreFields) :
    importStep e ls t = ls := by
  unfold importStep
  simp only [h1, Bool.false_eq_true, if_false]
  by_cases h3 : containsStr (renderAll ls) (cleanedTypeOf t) = true
  · simp [h3]
  · simp [h3, h2]

/-- Witness for C7's amended claim: a `String!` field (base name `string`)
adds no import. -/
theorem C7_witness : importStep [] [] "String!" = [] :=
  C7_amended [] [] "String!" (by decide) (by decide)

/-! ### C8: interface fields -/

/-- C8 (corrected): the claim that interface fields get the same rendering
as object fields (array conversion and marker stripping) is false — the
interface branch applies only the scalar substitution, leaving brackets
and `!` markers in the output verbatim. -/
theorem C8_counterexample :
    generateTypeScriptForType [] ⟨"Node", .interface [("tags", "[String!]!")]⟩ =
      "export interface Node \x7b\n  tags: [string!]!;\n\x7d" ∧
    generateTypeScriptForType [] ⟨"Node", .interface [("tags", "[String!]!")]⟩ ≠
      "export interface Node \x7b\n  tags: string[];\n\x7d" := by
  constructor <;> decide

theorem append_ne_of_head {a : List Char} {x y : Char} (hxy : x ≠ y) (b c : List Char) :
    a ++ x :: b ≠ a ++ y :: c := by
  intro h
  have := List.append_cancel_left h
  exact hxy (List.cons.injEq .. ▸ this).1

/-- C8 (amended): interface fields are rendered with the scalar
substitution only and always in the required form — the optional marker is
never produced even for a nullable field, a list-wrapped reference keeps
its brackets (no array-suffix conversion), and a non-null marker is kept
verbatim (no stripping). -/
theorem C8_amended (n t : String) :
    interfaceFieldLine n t ≠ "  " ++ n ++ "?: " ++ mapGraphQLTypeToTSType t ++ ";" ∧
    interfaceFieldLine n ("[" ++ t ++ "]") =
      "  " ++ n ++ ": " ++ ("[" ++ mapGraphQLTypeToTSType t ++ "]") ++ ";" ∧
    interfaceFieldLine n (t ++ "!") =
      "  " ++ n ++ ": " ++ (mapGraphQLTypeToTSType t ++ "!") ++ ";" := by
  refine ⟨?_, ?_, ?_⟩
  · unfold interfaceFieldLine
    intro h
    have hd := congrArg String.data h
    simp only [data_append, List.append_assoc] at hd
    have hd2 := List.append_cancel_left (List.append_cancel_left hd)
    simp at hd2
  · unfold interfaceFieldLine
    rw [mapG_wrap]
  · unfold interfaceFieldLine
    rw [mapG_bang]

/-! ### C9: unhandled type kinds -/

theorem pass1Step_other (ignore : List String) (st : List String × List (String × String))
    (n : String) : pass1Step ignore st ⟨n, .other⟩ = st := by
  unfold pass1Step
  split_ifs <;> simp_all [isScalarKind, isEnumKind]

theorem pass2Step_other (ignore e : List String) (files : List (String × String))
    (n : String) : pass2Step ignore e files ⟨n, .other⟩ = files := by
  unfold pass2Step
  split_ifs <;> simp_all [isScalarKind, isEnumKind, generateTypeScriptForType]

/-- C9 (confirmed): a named type whose kind is none of the five handled
kinds synthesizes to the empty string (no error: the function is total),
and both walker passes behave as if the type were absent — no file is
written for it and nothing else changes. -/
theorem C9_unhandled_kind_skipped (e ignore : List String) (n : String)
    (xs ys : List NamedType) :
    generateTypeScriptForType e ⟨n, .other⟩ = "" ∧
    pass1 ignore (xs ++ ⟨n, .other⟩ :: ys) = pass1 ignore (xs ++ ys) ∧
    pass2 ignore e (xs ++ ⟨n, .other⟩ :: ys) = pass2 ignore e (xs ++ ys) := by
  refine ⟨rfl, ?_, ?_⟩
  · unfold pass1
    rw [List.foldl_append, List.foldl_append, List.foldl_cons, pass1Step_other]
  · unfold pass2
    rw [List.foldl_append, List.foldl_append, List.foldl_cons, pass2Step_other]

/-! ### C10: substring-based import deduplication -/

/-- C10 (confirmed): import deduplication is substring containment on the
accumulated import text, not set membership — whenever the field's base
name already occurs anywhere in the rendered imports (for example `Color`
inside a previous `ColorType` import line), no import line is emitted for
the field at all. -/
theorem C10_substring_dedup (e : List String) (ls : List ImpLine) (t : String)
    (h1 : containsStr (fieldTsType t) "UTCDate" = false)
    (h2 : containsStr (renderAll ls) (cleanedTypeOf t) = true) :
    importStep e ls t = ls := by
  unfold importStep
  simp [h1, h2]

/-- Witness for C10: after a `ColorType` field, a `Color` field (a distinct
type whose name is a substring of the accumulated import text) adds
no new import line of its own. -/
theorem C10_witness :
    importStep [] (objectImports [] [("a", "ColorType")]) "Color" =
      objectImports [] [("a", "ColorType")] :=
  C10_substring_dedup [] _ "Color" (by decide) (by decide)

/-! ### C1: enum-first ordering and value imports -/

theorem pass1Step_fst_sub (ignore : List String) (st : List String × List (String × String))
    (t : NamedType) : st.1 ⊆ (pass1Step ignore st t).1 := by
  unfold pass1Step
  split_ifs <;> try simp
  split <;> simp

theorem pass1_fold_fst_mem (ignore : List String) (ts : List NamedType) :
    ∀ (st : List String × List (String × String)) (E : String), E ∈ st.1 →
      E ∈ (ts.foldl (pass1Step ignore) st).1 := by
  induction ts with
  | nil => intro st E h; exact h
  | cons t ts ih =>
    intro st E h
    rw [List.foldl_cons]
    exact ih _ E (pass1Step_fst_sub ignore st t h)

theorem enum_content_ne_empty (e : List String) (E : String) (vs : List (String × String)) :
    generateTypeScriptForType e ⟨E, .enum vs⟩ ≠ "" := by
  intro h
  have hd := congrArg String.data h
  simp [generateTypeScriptForType, data_append] at hd

theorem pass1Step_enum_mem (ignore : List String)
    (st : List String × List (String × String)) (E : String) (vs : List (String × String))
    (h1 : isMetaName E = false) (h2 : E ∉ ignore) :
    E ∈ (pass1Step ignore st ⟨E, .enum vs⟩).1 := by
  unfold pass1Step
  simp only [h1, Bool.false_eq_true, if_false, isScalarKind, isEnumKind, Bool.false_and,
    Bool.not_true, if_neg (enum_content_ne_empty st.1 E vs)]
  rw [if_neg (by simpa using h2)]
  simp

theorem collectEnums_mem (ignore : List String) (xs ys : List NamedType) (E : String)
    (vs : List (String × String)) (h1 : isMetaName E = false) (h2 : E ∉ ignore) :
    E ∈ collectEnums ignore (xs ++ ⟨E, .enum vs⟩ :: ys) := by
  unfold collectEnums pass1
  rw [List.foldl_append, List.foldl_cons]
  exact pass1_fold_fst_mem ignore ys _ E
    (pass1Step_enum_mem ignore _ E vs h1 h2)

/-- C1 (corrected): as a universal statement the claim is false — the
substring-based deduplication can suppress the enum's value import
entirely.  With enum `Color` registered in pass 1, an object whose fields
are `a: ColorType` then `b: Color` accumulates only the `ColorType`
line: the `Color` field produces no import at all because `Color` is a
substring of the already-accumulated text. -/
theorem C1_counterexample :
    collectEnums [] [⟨"Color", .enum [("RED", "RED")]⟩] = ["Color"] ∧
    objectImports (collectEnums [] [⟨"Color", .enum [("RED", "RED")]⟩])
        [("a", "ColorType"), ("b", "Color")] = [ImpLine.typeL "ColorType"] := by
  constructor <;> decide

/-- C1 (amended): for an object field whose base name is an enum of the
schema (not ignored, not a meta-type), two-pass generation emits the
value import from the enums sub-path, if the base name actually resolves
to the enum's name (it survives the scalar substitution), the rendered
type does not contain the external date type, the name is not one of the
built-in primitives, and the name does not already occur as a substring of
the imports accumulated from earlier fields of the declaration.  Pass 1
registers every such enum before any object is synthesized. -/
theorem C1_amended (ignore : List String) (xs ys : List NamedType) (E : String)
    (vs : List (String × String)) (ls : List ImpLine) (t : String)
    (h1 : isMetaName E = false) (h2 : E ∉ ignore)
    (h3 : cleanedTypeOf t = E)
    (h4 : containsStr (fieldTsType t) "UTCDate" = false)
    (h5 : containsStr (renderAll ls) E = false)
    (h6 : E ∉ ignoreFields) :
    importStep (collectEnums ignore (xs ++ ⟨E, .enum vs⟩ :: ys)) ls t =
      ls ++ [ImpLine.enumL E] := by
  have hreg := collectEnums_mem ignore xs ys E vs h1 h2
  unfold importStep
  rw [h3]
  simp [h4, h5, h6, hreg]

/-- Witness for C1's amended claim: a one-enum schema and a bare `Color`
field at the start of a declaration. -/
theorem C1_witness :
    importStep (collectEnums [] ([] ++ ⟨"Color", .enum [("RED", "RED")]⟩ :: [])) [] "Color" =
      [] ++ [ImpLine.enumL "Color"] :=
  C1_amended [] [] [] "Color" [("RED", "RED")] [] "Color" (by decide) (by decide)
    (by decide) (by decide) (by decide) (by decide)

/-! ### C6: splitting substrings across concatenation boundaries -/

theorem infix_split_left {p a b : List Char} (h : p <:+: a ++ b)
    (hlast : ∀ ch, a.getLast? = some ch → ch ∉ p) : p <:+: a ∨ p <:+: b := by
  obtain ⟨s, t, hst⟩ := h
  rw [List.append_assoc] at hst
  rcases List.append_eq_append_iff.mp hst with ⟨a', ha1, ha2⟩ | ⟨c', hc1, hc2⟩
  · rcases List.append_eq_append_iff.mp ha2 with ⟨x, hx1, hx2⟩ | ⟨y, hy1, hy2⟩
    · left
      exact ⟨s, x, by rw [ha1, hx1, List.append_assoc]⟩
    · by_cases ha' : a' = []
      · subst ha'
        simp only [List.nil_append] at hy1
        subst hy1
        right
        exact ⟨[], t, by rw [hy2]; simp⟩
      · exfalso
        have hgl : a.getLast? = some (a'.getLast ha') := by
          rw [ha1, List.getLast?_append_of_ne_nil _ ha']
          exact List.getLast?_eq_getLast a' ha'
        apply hlast _ hgl
        have : a'.getLast ha' ∈ a' := List.getLast_mem ha'
        rw [hy1]
        exact List.mem_append.mpr (Or.inl this)
  · right
    exact ⟨c', t, by rw [hc2, List.append_assoc]⟩

theorem infix_split_right {p a b : List Char} (h : p <:+: a ++ b)
    (hhead : ∀ ch, b.head? = some ch → ch ∉ p) : p <:+: a ∨ p <:+: b := by
  have h' : p.reverse <:+: b.reverse ++ a.reverse := by
    rw [← List.reverse_append]
    exact List.IsInfix.reverse h
  have hl : ∀ ch, b.reverse.getLast? = some ch → ch ∉ p.reverse := by
    intro ch hch hm
    rw [List.getLast?_reverse] at hch
    exact hhead ch hch (List.mem_reverse.mp hm)
  rcases infix_split_left h' hl with h1 | h1
  · right
    rw [← List.reverse_infix]
    exact h1
  · left
    rw [← List.reverse_infix]
    exact h1

theorem render_ends_newline (l : ImpLine) :
    (ImpLine.render l).data.getLast? = some '\n' := by
  cases l <;>
    · simp only [ImpLine.render, data_append]
      rw [List.getLast?_append_of_ne_nil _ (by decide)]
      decide

theorem renderAll_ends (ls : List ImpLine) :
    renderAll ls = "" ∨ (renderAll ls).data.getLast? = some '\n' := by
  induction ls with
  | nil => left; rfl
  | cons l rest ih =>
    right
    show ((ImpLine.render l) ++ renderAll rest).data.getLast? = some '\n'
    rw [data_append]
    rcases ih with h | h
    · rw [h]
      simp only [show ("" : String).data = [] from rfl, List.append_nil]
      exact render_ends_newline l
    · have hne : (renderAll rest).data ≠ [] := by
        intro hx
        rw [hx] at h
        simp at h
      rw [List.getLast?_append_of_ne_nil _ hne]
      exact h

theorem renderAll_append_one (ls : List ImpLine) (x : ImpLine) :
    renderAll (ls ++ [x]) = renderAll ls ++ ImpLine.render x := by
  induction ls with
  | nil =>
    apply string_ext
    show (ImpLine.render x ++ "").data = ("" ++ ImpLine.render x).data
    simp [data_append]
  | cons l rest ih =>
    apply string_ext
    show (ImpLine.render l ++ renderAll (rest ++ [x])).data =
      ((ImpLine.render l ++ renderAll rest) ++ ImpLine.render x).data
    rw [ih]
    simp [data_append]

theorem mem_render_infixB {l : ImpLine} : ∀ {ls : List ImpLine}, l ∈ ls →
    infixB (ImpLine.render l).data (renderAll ls).data = true := by
  intro ls
  induction ls with
  | nil => intro h; cases h
  | cons hd tl ih =>
    intro h
    show infixB (ImpLine.render l).data (ImpLine.render hd ++ renderAll tl).data = true
    rw [data_append]
    rcases List.mem_cons.mp h with rfl | hm
    · exact infixB_append_right _ ((infixB_iff _ _).mpr ⟨[], [], by simp⟩)
    · exact infixB_append_left _ (ih hm)

theorem toLower_ne_U (ch : Char) : Char.toLower ch ≠ 'U' := by
  show (if ch.toNat ≥ 65 ∧ ch.toNat ≤ 90 then Char.ofNat (ch.toNat + 32) else ch) ≠ 'U'
  split
  · next h =>
    obtain ⟨h1, h2⟩ := h
    intro heq
    generalize hn : ch.toNat = n at h1 h2 heq
    interval_cases n <;> exact absurd heq (by decide)
  · next h =>
    intro heq
    subst heq
    exact h (by decide)

theorem last_not_in {a p : List Char} {ch : Char} (hl : a.getLast? = some ch)
    (hm : ch ∉ p) : ∀ c, a.getLast? = some c → c ∉ p := by
  intro c hc
  rw [hl, Option.some.injEq] at hc
  subst hc
  exact hm

theorem head_not_in {b p : List Char} {ch : Char} (hh : b.head? = some ch)
    (hm : ch ∉ p) : ∀ c, b.head? = some c → c ∉ p := by
  intro c hc
  rw [hh, Option.some.injEq] at hc
  subst hc
  exact hm

theorem infixB_trans {p q r : List Char} (h1 : infixB p q = true) (h2 : infixB q r = true) :
    infixB p r = true := by
  rw [infixB_iff] at h1 h2 ⊢
  exact h1.trans h2

theorem utc_infix_lower {c : String}
    (h : infixB "UTCDate".data (lowercaseFirstLetter c).data = true) :
    infixB "UTCDate".data c.data = true := by
  cases hc : c.data with
  | nil =>
    have hl : (lowercaseFirstLetter c).data = [] := by
      simp [lowercaseFirstLetter, hc]
    rw [hl] at h
    exact absurd h (by decide)
  | cons ch rest =>
    have hl : (lowercaseFirstLetter c).data = Char.toLower ch :: rest := by
      simp [lowercaseFirstLetter, hc]
    rw [hl] at h
    rw [infixB_iff] at h ⊢
    rcases List.infix_cons_iff.mp h with hpre | hinf
    · exfalso
      rw [show ("UTCDate" : String).data = 'U' :: "TCDate".data from rfl] at hpre
      have := (List.cons_prefix_cons.mp hpre).1
      exact toLower_ne_U ch this.symm
    · exact List.infix_cons_iff.mpr (Or.inr hinf)

theorem enum_render_data (n : String) : (ImpLine.render (.enumL n)).data
    = "import \x7b".data ++ (n.data ++ ("\x7d from \"./enums/".data ++
      ((lowercaseFirstLetter n).data ++ "\";\n".data))) := by
  simp [ImpLine.render, data_append]

theorem type_render_data (n : String) : (ImpLine.render (.typeL n)).data
    = "import type \x7b".data ++ (n.data ++ ("\x7d from \"./".data ++
      ((lowercaseFirstLetter n).data ++ "\";\n".data))) := by
  simp [ImpLine.render, data_append]

theorem utc_in_name_of_enum_line {c : String}
    (h : infixB "UTCDate".data (ImpLine.render (.enumL c)).data = true) :
    infixB "UTCDate".data c.data = true := by
  rw [enum_render_data, infixB_iff] at h
  rcases infix_split_left h (@last_not_in _ _ (Char.ofNat 123) (by decide) (by decide))
    with h1 | h1
  · exact absurd ((infixB_iff _ _).mpr h1) (by decide)
  rcases infix_split_right h1 (@head_not_in _ _ (Char.ofNat 125) rfl (by decide))
    with h2 | h2
  · exact (infixB_iff _ _).mpr h2
  rcases infix_split_left h2 (@last_not_in _ _ '/' (by decide) (by decide)) with h3 | h3
  · exact absurd ((infixB_iff _ _).mpr h3) (by decide)
  rcases infix_split_right h3 (@head_not_in _ _ '"' rfl (by decide)) with h4 | h4
  · exact utc_infix_lower ((infixB_iff _ _).mpr h4)
  · exact absurd ((infixB_iff _ _).mpr h4) (by decide)

theorem utc_in_name_of_type_line {c : String}
    (h : infixB "UTCDate".data (ImpLine.render (.typeL c)).data = true) :
    infixB "UTCDate".data c.data = true := by
  rw [type_render_data, infixB_iff] at h
  rcases infix_split_left h (@last_not_in _ _ (Char.ofNat 123) (by decide) (by decide))
    with h1 | h1
  · exact absurd ((infixB_iff _ _).mpr h1) (by decide)
  rcases infix_split_right h1 (@head_not_in _ _ (Char.ofNat 125) rfl (by decide))
    with h2 | h2
  · exact (infixB_iff _ _).mpr h2
  rcases infix_split_left h2 (@last_not_in _ _ '/' (by decide) (by decide)) with h3 | h3
  · exact absurd ((infixB_iff _ _).mpr h3) (by decide)
  rcases infix_split_right h3 (@head_not_in _ _ '"' rfl (by decide)) with h4 | h4
  · exact utc_infix_lower ((infixB_iff _ _).mpr h4)
  · exact absurd ((infixB_iff _ _).mpr h4) (by decide)

theorem utc_in_renderAll : ∀ {ls : List ImpLine},
    infixB "UTCDate".data (renderAll ls).data = true →
    ∃ l ∈ ls, infixB "UTCDate".data (ImpLine.render l).data = true := by
  intro ls
  induction ls with
  | nil =>
    intro h
    rw [show renderAll [] = "" from rfl] at h
    exact absurd h (by decide)
  | cons l rest ih =>
    intro h
    rw [show renderAll (l :: rest) = ImpLine.render l ++ renderAll rest from rfl,
      data_append, infixB_iff] at h
    rcases infix_split_left h (last_not_in (render_ends_newline l) (by decide)) with h1 | h1
    · exact ⟨l, List.mem_cons_self _ _, (infixB_iff _ _).mpr h1⟩
    · obtain ⟨l', hm, hi⟩ := ih ((infixB_iff _ _).mpr h1)
      exact ⟨l', List.mem_cons_of_mem _ hm, hi⟩

theorem name_infix_enum_render (n : String) :
    infixB n.data (ImpLine.render (.enumL n)).data = true := by
  rw [enum_render_data, infixB_iff]
  exact ⟨"import \x7b".data, _, by rw [List.append_assoc]⟩

theorem name_infix_type_render (n : String) :
    infixB n.data (ImpLine.render (.typeL n)).data = true := by
  rw [type_render_data, infixB_iff]
  exact ⟨"import type \x7b".data, _, by rw [List.append_assoc]⟩

theorem importStep_eq_or_append (e : List String) (ls : List ImpLine) (t : String) :
    importStep e ls t = ls ∨ ∃ x, importStep e ls t = ls ++ [x] := by
  by_cases hA : containsStr (fieldTsType t) "UTCDate" = true
  · by_cases hA2 : containsStr (renderAll ls) "UTCDate" = true
    · left; unfold importStep; simp [hA, hA2]
    · right; exact ⟨ImpLine.utc, by unfold importStep; simp [hA, hA2]⟩
  · by_cases hB : containsStr (renderAll ls) (cleanedTypeOf t) = true
    · left; unfold importStep; simp [hA, hB]
    · by_cases hC : cleanedTypeOf t ∈ ignoreFields
      · left; unfold importStep; simp [hA, hB, hC]
      · by_cases hD : cleanedTypeOf t ∈ e
        · right
          exact ⟨ImpLine.enumL (cleanedTypeOf t), by unfold importStep; simp [hA, hB, hC, hD]⟩
        · right
          exact ⟨ImpLine.typeL (cleanedTypeOf t), by unfold importStep; simp [hA, hB, hC, hD]⟩

theorem importStep_sub (e : List String) (ls : List ImpLine) (t : String) :
    ls ⊆ importStep e ls t := by
  rcases importStep_eq_or_append e ls t with h | ⟨x, h⟩
  · rw [h]
    exact List.Subset.refl _
  · rw [h]
    exact List.subset_append_left _ _

theorem importStep_cases (e : List String) (ls : List ImpLine) (t : String) :
    (importStep e ls t = ls ∧ (containsStr (fieldTsType t) "UTCDate" = true →
      containsStr (renderAll ls) "UTCDate" = true)) ∨
    (importStep e ls t = ls ++ [ImpLine.utc] ∧
      containsStr (fieldTsType t) "UTCDate" = true ∧
      containsStr (renderAll ls) "UTCDate" = false) ∨
    (∃ x, (x = ImpLine.enumL (cleanedTypeOf t) ∨ x = ImpLine.typeL (cleanedTypeOf t)) ∧
      importStep e ls t = ls ++ [x] ∧
      containsStr (fieldTsType t) "UTCDate" = false ∧
      containsStr (renderAll ls) (cleanedTypeOf t) = false) := by
  by_cases hA : containsStr (fieldTsType t) "UTCDate" = true
  · by_cases hA2 : containsStr (renderAll ls) "UTCDate" = true
    · exact Or.inl ⟨by unfold importStep; simp [hA, hA2], fun _ => hA2⟩
    · refine Or.inr (Or.inl ⟨by unfold importStep; simp [hA, hA2], hA, ?_⟩)
      simpa using hA2
  · by_cases hB : containsStr (renderAll ls) (cleanedTypeOf t) = true
    · exact Or.inl ⟨by unfold importStep; simp [hA, hB], fun hda => absurd hda hA⟩
    · by_cases hC : cleanedTypeOf t ∈ ignoreFields
      · exact Or.inl ⟨by unfold importStep; simp [hA, hB, hC], fun hda => absurd hda hA⟩
      · by_cases hD : cleanedTypeOf t ∈ e
        · exact Or.inr (Or.inr ⟨ImpLine.enumL (cleanedTypeOf t), Or.inl rfl,
            by unfold importStep; simp [hA, hB, hC, hD], by simpa using hA,
            by simpa using hB⟩)
        · exact Or.inr (Or.inr ⟨ImpLine.typeL (cleanedTypeOf t), Or.inr rfl,
            by unfold importStep; simp [hA, hB, hC, hD], by simpa using hA,
            by simpa using hB⟩)

theorem nameImportCount_append (a b : List ImpLine) (s : String) :
    nameImportCount (a ++ b) s = nameImportCount a s + nameImportCount b s := by
  simp only [nameImportCount, List.count_append]
  omega

theorem utcImportCount_append (a b : List ImpLine) :
    utcImportCount (a ++ b) = utcImportCount a + utcImportCount b := by
  simp [utcImportCount, List.count_append]

theorem nameCount_step (e : List String) (b : String) (ls : List ImpLine) (t : String)
    (h1 : nameImportCount ls b ≤ 1)
    (h2 : 1 ≤ nameImportCount ls b → infixB b.data (renderAll ls).data = true) :
    nameImportCount (importStep e ls t) b ≤ 1 ∧
      (1 ≤ nameImportCount (importStep e ls t) b →
        infixB b.data (renderAll (importStep e ls t)).data = true) := by
  rcases importStep_cases e ls t with ⟨hst, _⟩ | ⟨hst, _, _⟩ | ⟨x, hx, hst, _, hBf⟩
  · rw [hst]
    exact ⟨h1, h2⟩
  · rw [hst]
    have hcnt : nameImportCount (ls ++ [ImpLine.utc]) b = nameImportCount ls b := by
      rw [nameImportCount_append]
      simp [nameImportCount, List.count_singleton]
    constructor
    · rw [hcnt]
      exact h1
    · intro hge
      rw [hcnt] at hge
      rw [renderAll_append_one, data_append]
      exact infixB_append_right _ (h2 hge)
  · rw [hst]
    by_cases hbc : cleanedTypeOf t = b
    · subst hbc
      have hz : nameImportCount ls (cleanedTypeOf t) = 0 := by
        by_contra hnz
        have hT : containsStr (renderAll ls) (cleanedTypeOf t) = true := h2 (by omega)
        rw [hT] at hBf
        simp at hBf
      have hcx : nameImportCount [x] (cleanedTypeOf t) = 1 := by
        rcases hx with rfl | rfl <;> simp [nameImportCount, List.count_singleton]
      have hinf : infixB (cleanedTypeOf t).data (ImpLine.render x).data = true := by
        rcases hx with rfl | rfl
        · exact name_infix_enum_render _
        · exact name_infix_type_render _
      constructor
      · rw [nameImportCount_append, hz, hcx]
      · intro _
        rw [renderAll_append_one, data_append]
        exact infixB_append_left _ hinf
    · have hcx : nameImportCount [x] b = 0 := by
        have hn1 : x ≠ ImpLine.enumL b := by
          rcases hx with rfl | rfl <;> simp [hbc]
        have hn2 : x ≠ ImpLine.typeL b := by
          rcases hx with rfl | rfl <;> simp [hbc]
        simp [nameImportCount, List.count_singleton, hn1, hn2]
      constructor
      · rw [nameImportCount_append, hcx]
        omega
      · intro hge
        rw [nameImportCount_append, hcx] at hge
        rw [renderAll_append_one, data_append]
        exact infixB_append_right _ (h2 (by omega))

theorem nameCount_fold (e : List String) (b : String) :
    ∀ (fields : List (String × String)) (ls : List ImpLine),
      nameImportCount ls b ≤ 1 →
      (1 ≤ nameImportCount ls b → infixB b.data (renderAll ls).data = true) →
      nameImportCount (fields.foldl (fun acc f => importStep e acc f.2) ls) b ≤ 1 := by
  intro fields
  induction fields with
  | nil => intro ls h1 _; exact h1
  | cons f fs ih =>
    intro ls h1 h2
    rw [List.foldl_cons]
    obtain ⟨g1, g2⟩ := nameCount_step e b ls f.2 h1 h2
    exact ih _ g1 g2

theorem utcCount_step (e : List String) (ls : List ImpLine) (t : String)
    (hf : containsStr (cleanedTypeOf t) "UTCDate" = true →
      containsStr (fieldTsType t) "UTCDate" = true)
    (h1 : utcImportCount ls ≤ 1)
    (h2 : infixB "UTCDate".data (renderAll ls).data = true → ImpLine.utc ∈ ls) :
    utcImportCount (importStep e ls t) ≤ 1 ∧
      (infixB "UTCDate".data (renderAll (importStep e ls t)).data = true →
        ImpLine.utc ∈ importStep e ls t) ∧
      (containsStr (fieldTsType t) "UTCDate" = true → ImpLine.utc ∈ importStep e ls t) := by
  rcases importStep_cases e ls t with ⟨hst, himp⟩ | ⟨hst, hda, hren⟩ | ⟨x, hx, hst, hda, hBf⟩
  · rw [hst]
    exact ⟨h1, h2, fun hd => h2 (himp hd)⟩
  · rw [hst]
    have hnm : ImpLine.utc ∉ ls := by
      intro hm
      have hT : containsStr (renderAll ls) "UTCDate" = true :=
        infixB_trans (by decide) (mem_render_infixB hm)
      rw [hT] at hren
      simp at hren
    have hz : utcImportCount ls = 0 := by
      unfold utcImportCount
      rw [List.count_eq_zero]
      exact hnm
    refine ⟨?_, fun _ => by simp, fun _ => by simp⟩
    rw [utcImportCount_append, hz]
    simp [utcImportCount, List.count_singleton]
  · rw [hst]
    have hcx : utcImportCount [x] = 0 := by
      rcases hx with rfl | rfl <;> simp [utcImportCount, List.count_singleton]
    have hnametf : infixB "UTCDate".data (ImpLine.render x).data = true → False := by
      intro hin
      have hname : infixB "UTCDate".data (cleanedTypeOf t).data = true := by
        rcases hx with rfl | rfl
        · exact utc_in_name_of_enum_line hin
        · exact utc_in_name_of_type_line hin
      have hT : containsStr (cleanedTypeOf t) "UTCDate" = true := hname
      have hF := hf hT
      rw [hF] at hda
      simp at hda
    refine ⟨?_, ?_, fun hd => absurd hd (by simp [hda])⟩
    · rw [utcImportCount_append, hcx]
      omega
    · intro hin
      rw [renderAll_append_one, data_append, infixB_iff] at hin
      rcases renderAll_ends ls with hemp | hnl
      · rw [hemp] at hin
        simp only [show ("" : String).data = [] from rfl, List.nil_append] at hin
        exact (hnametf ((infixB_iff _ _).mpr hin)).elim
      · rcases infix_split_left hin (last_not_in hnl (by decide)) with hi | hi
        · exact List.mem_append.mpr (Or.inl (h2 ((infixB_iff _ _).mpr hi)))
        · exact (hnametf ((infixB_iff _ _).mpr hi)).elim

theorem utcCount_fold (e : List String) :
    ∀ (fields : List (String × String)) (ls : List ImpLine),
      (∀ f ∈ fields, containsStr (cleanedTypeOf f.2) "UTCDate" = true →
        containsStr (fieldTsType f.2) "UTCDate" = true) →
      utcImportCount ls ≤ 1 →
      (infixB "UTCDate".data (renderAll ls).data = true → ImpLine.utc ∈ ls) →
      utcImportCount (fields.foldl (fun acc f => importStep e acc f.2) ls) ≤ 1 ∧
        (ImpLine.utc ∈ ls →
          ImpLine.utc ∈ fields.foldl (fun acc f => importStep e acc f.2) ls) ∧
        ((∃ f ∈ fields, containsStr (fieldTsType f.2) "UTCDate" = true) →
          ImpLine.utc ∈ fields.foldl (fun acc f => importStep e acc f.2) ls) := by
  intro fields
  induction fields with
  | nil =>
    intro ls _ h1 _
    simp only [List.foldl_nil]
    refine ⟨h1, fun h => h, ?_⟩
    rintro ⟨f, hm, _⟩
    cases hm
  | cons f fs ih =>
    intro ls hf h1 h2
    simp only [List.foldl_cons]
    obtain ⟨g1, g2, g3⟩ := utcCount_step e ls f.2 (hf f (List.mem_cons_self _ _)) h1 h2
    obtain ⟨k1, k2, k3⟩ := ih (importStep e ls f.2)
      (fun f' hm' => hf f' (List.mem_cons_of_mem _ hm')) g1 g2
    refine ⟨k1, fun hm => k2 (importStep_sub e ls f.2 hm), ?_⟩
    rintro ⟨f', hm', hd'⟩
    rcases List.mem_cons.mp hm' with rfl | hmem
    · exact k2 (g3 hd')
    · exact k3 ⟨f', hmem, hd'⟩

/-- C6 (confirmed): within one object declaration each distinct base name
produces at most one import line, and the external date type produces
exactly one `@date-fns/utc` import line whenever any field's mapped type
contains `UTCDate`, regardless of how many date-typed fields there are.
The hypothesis states that a base name containing `UTCDate` can only come
from a mapped type containing `UTCDate` — true of every printed GraphQL
type reference, whose single base name is never split by wrapper
characters. -/
theorem C6_import_determinism (e : List String) (fields : List (String × String))
    (b : String)
    (hw : ∀ f ∈ fields, containsStr (cleanedTypeOf f.2) "UTCDate" = true →
      containsStr (fieldTsType f.2) "UTCDate" = true) :
    nameImportCount (objectImports e fields) b ≤ 1 ∧
    ((∃ f ∈ fields, containsStr (fieldTsType f.2) "UTCDate" = true) →
      utcImportCount (objectImports e fields) = 1) := by
  constructor
  · unfold objectImports
    exact nameCount_fold e b fields [] (by simp [nameImportCount]) (by simp [nameImportCount])
  · intro hex
    obtain ⟨k1, _, k3⟩ := utcCount_fold e fields [] hw (by simp [utcImportCount])
      (by
        intro h
        rw [show renderAll [] = "" from rfl] at h
        exact absurd h (by decide))
    have hmem := k3 hex
    have hpos : 0 < utcImportCount (objectImports e fields) := by
      unfold objectImports utcImportCount
      exact List.count_pos_iff.mpr hmem
    have hle : utcImportCount (objectImports e fields) ≤ 1 := by
      unfold objectImports
      exact k1
    omega

/-- Witness for C6: two date-typed fields and one object-typed field yield
exactly one `UTCDate` import and at most one `Episode` import. -/
theorem C6_witness :
    nameImportCount
      (objectImports [] [("x", "NaiveDate"), ("y", "NaiveDateTime"), ("z", "Episode")])
      "Episode" ≤ 1 ∧
    utcImportCount
      (objectImports [] [("x", "NaiveDate"), ("y", "NaiveDateTime"), ("z", "Episode")]) = 1 := by
  have h := C6_import_determinism []
    [("x", "NaiveDate"), ("y", "NaiveDateTime"), ("z", "Episode")] "Episode" (by decide)
  exact ⟨h.1, h.2 ⟨("x", "NaiveDate"), by decide, by decide⟩⟩

end TypeBridge
